import Mathlib

/-!
Verification of the animation-sequencing engine in src/animation.js
(classes Element, Box, Path, Link, AnimationFramework with the movers
moveBetweenPoints, moveAlongPath, followPath and createLink).

Embedding conventions:
* JavaScript numbers are modelled as rationals, except where the code can
  produce non-finite values: the progress computation
  Math.min(elapsed / duration, 1) divides by the caller-supplied duration,
  so division, min, multiplication, addition and the comparison progress < 1
  are modelled on a shadow type JsNum with NaN, +Infinity and -Infinity,
  following IEEE/JS semantics (x/0 is +-Infinity or NaN, Math.min propagates
  NaN, NaN < 1 is false).
* The cooperative frame scheduler (requestAnimationFrame) is modelled by an
  explicit list of frame timestamps: each animate invocation consumes the
  next timestamp.  performance.now() at the start of a mover is a parameter
  now; when a segment or traversal completes inside a frame callback, the
  next mover starts with now equal to that frame timestamp.
* Callbacks are modelled by event traces: the trace records, in order, every
  invocation the code would make of the step / segment-complete / overall
  complete / update callbacks with the arguments it would pass.
* For followPath, JavaScript array identity matters (the code copies the
  path points with a spread before reversing in place), so the two arrays in
  play are modelled as a two-cell heap: cell 0 is path.points, cell 1 is the
  working copy pathPoints; Array.prototype.reverse is an in-place update of
  one cell.
-/

namespace Animation

/-- A 2D point with rational coordinates, as in the Path points. -/
structure Point where
  x : ℚ
  y : ℚ
deriving DecidableEq, Repr

/-- Shadow of a JavaScript number: finite value, infinities or NaN. -/
inductive JsNum where
  | nan : JsNum
  | posInf : JsNum
  | negInf : JsNum
  | fin : ℚ → JsNum
deriving DecidableEq, Repr

/-- JavaScript division of two finite numbers: x/0 is an infinity for
nonzero x and NaN for 0/0. -/
def jsDiv (a b : ℚ) : JsNum :=
  if b = 0 then
    if 0 < a then JsNum.posInf else if a < 0 then JsNum.negInf else JsNum.nan
  else JsNum.fin (a / b)

/-- Math.min on JsNum: NaN propagates, -Infinity dominates. -/
def jsMin : JsNum → JsNum → JsNum
  | JsNum.nan, _ => JsNum.nan
  | _, JsNum.nan => JsNum.nan
  | JsNum.negInf, _ => JsNum.negInf
  | _, JsNum.negInf => JsNum.negInf
  | JsNum.posInf, b => b
  | a, JsNum.posInf => a
  | JsNum.fin a, JsNum.fin b => JsNum.fin (min a b)

/-- The JavaScript comparison a < b on JsNum: any comparison with NaN is
false. -/
def jsLtb : JsNum → JsNum → Bool
  | JsNum.nan, _ => false
  | _, JsNum.nan => false
  | JsNum.negInf, JsNum.negInf => false
  | JsNum.negInf, _ => true
  | _, JsNum.negInf => false
  | JsNum.posInf, _ => false
  | JsNum.fin _, JsNum.posInf => true
  | JsNum.fin a, JsNum.fin b => decide (a < b)

/-- JavaScript multiplication on JsNum: NaN propagates, Infinity times 0 is
NaN. -/
def jsMul : JsNum → JsNum → JsNum
  | JsNum.nan, _ => JsNum.nan
  | _, JsNum.nan => JsNum.nan
  | JsNum.posInf, JsNum.posInf => JsNum.posInf
  | JsNum.posInf, JsNum.negInf => JsNum.negInf
  | JsNum.negInf, JsNum.posInf => JsNum.negInf
  | JsNum.negInf, JsNum.negInf => JsNum.posInf
  | JsNum.posInf, JsNum.fin q =>
      if 0 < q then JsNum.posInf else if q < 0 then JsNum.negInf else JsNum.nan
  | JsNum.fin q, JsNum.posInf =>
      if 0 < q then JsNum.posInf else if q < 0 then JsNum.negInf else JsNum.nan
  | JsNum.negInf, JsNum.fin q =>
      if 0 < q then JsNum.negInf else if q < 0 then JsNum.posInf else JsNum.nan
  | JsNum.fin q, JsNum.negInf =>
      if 0 < q then JsNum.negInf else if q < 0 then JsNum.posInf else JsNum.nan
  | JsNum.fin a, JsNum.fin b => JsNum.fin (a * b)

/-- JavaScript addition on JsNum: NaN propagates, opposite infinities give
NaN. -/
def jsAdd : JsNum → JsNum → JsNum
  | JsNum.nan, _ => JsNum.nan
  | _, JsNum.nan => JsNum.nan
  | JsNum.posInf, JsNum.negInf => JsNum.nan
  | JsNum.negInf, JsNum.posInf => JsNum.nan
  | JsNum.posInf, _ => JsNum.posInf
  | _, JsNum.posInf => JsNum.posInf
  | JsNum.negInf, _ => JsNum.negInf
  | _, JsNum.negInf => JsNum.negInf
  | JsNum.fin a, JsNum.fin b => JsNum.fin (a + b)

/-- AnimationFramework.calculateLinearInterpolation:
start + (end - start) * progress, where start and end are finite but
progress may be non-finite (it came through jsDiv). -/
def calculateLinearInterpolation (start stop : ℚ) (progress : JsNum) : JsNum :=
  jsAdd (JsNum.fin start) (jsMul (JsNum.fin (stop - start)) progress)

/-- One invocation of the step callback of moveBetweenPoints: the x, y
arguments and the stepIndex argument. -/
structure Step where
  x : JsNum
  y : JsNum
  idx : ℕ
deriving DecidableEq, Repr

/-- The animate loop of moveBetweenPoints, driven by the list of frame
timestamps.  Returns the list of step-callback invocations and, when the
animation reached progress not below 1, the timestamp of the completing
frame together with the unconsumed frames (the completion callback runs
inside that frame; subsequent animations consume the remaining frames).
Returns none in the second component when the frame supply ran out first.  -/
def runMove (sp ep : Point) (duration startTime : ℚ) :
    ℕ → List ℚ → List Step × Option (ℚ × List ℚ)
  | _, [] => ([], none)
  | stepIndex, t :: rest =>
    let elapsed := t - startTime
    let progress := jsMin (jsDiv elapsed duration) (JsNum.fin 1)
    let x := calculateLinearInterpolation sp.x ep.x progress
    let y := calculateLinearInterpolation sp.y ep.y progress
    if jsLtb progress (JsNum.fin 1) then
      let r := runMove sp ep duration startTime (stepIndex + 1) rest
      (⟨x, y, stepIndex⟩ :: r.1, r.2)
    else
      ([⟨x, y, stepIndex⟩], some (t, rest))

/-- Observable events of one moveBetweenPoints invocation: step-callback
invocations and the completion-callback invocation. -/
inductive MoveEvent where
  | step : JsNum → JsNum → ℕ → MoveEvent
  | complete : MoveEvent
deriving DecidableEq, Repr

/-- AnimationFramework.moveBetweenPoints as an event trace: steps in order,
followed by complete exactly when the animation finished within the given
frame supply. -/
def moveBetweenPoints (sp ep : Point) (duration startTime : ℚ)
    (frames : List ℚ) : List MoveEvent :=
  let r := runMove sp ep duration startTime 0 frames
  r.1.map (fun s => MoveEvent.step s.x s.y s.idx) ++
    (if r.2.isSome then [MoveEvent.complete] else [])

/-- Termination of a moveBetweenPoints call in the frame-scheduler model:
some schedule of frame timestamps (none earlier than the startTime taken
by performance.now at invocation) makes the animation reach its completion
callback.  A call that never completes under any schedule is a move that
runs (reschedules itself) forever. -/
def movesToCompletion (sp ep : Point) (d st : ℚ) : Prop :=
  ∃ fs : List ℚ, (∀ t ∈ fs, st ≤ t) ∧
    MoveEvent.complete ∈ moveBetweenPoints sp ep d st fs

/-- Observable events of one moveAlongPath invocation: step-callback
invocations (x, y, stepIndex, segmentIndex), segment-completion-callback
invocations (segmentIndex) and the overall completion-callback
invocation. -/
inductive PathEvent where
  | step : JsNum → JsNum → ℕ → ℕ → PathEvent
  | segComplete : ℕ → PathEvent
  | complete : PathEvent
deriving DecidableEq, Repr

/-- The moveNextSegment recursion of moveAlongPath.  segsLeft counts the
segments still to run (totalSegments - currentSegment, so the guard
currentSegment >= totalSegments is segsLeft = 0); cs is currentSegment.
Each segment runs moveBetweenPoints from startTime now; when it completes
inside a frame, the next segment starts with now equal to that frame
timestamp and consumes the remaining frames.  Returns the event trace and,
when the whole walk completed, the completion timestamp with the
unconsumed frames. -/
def runPath (pts : List Point) (segDur : ℚ) :
    ℕ → ℕ → ℚ → List ℚ → List PathEvent × Option (ℚ × List ℚ)
  | 0, _, now, frames => ([PathEvent.complete], some (now, frames))
  | segsLeft + 1, cs, now, frames =>
    let sp := pts.getD cs ⟨0, 0⟩
    let ep := pts.getD (cs + 1) ⟨0, 0⟩
    let r := runMove sp ep segDur now 0 frames
    let stepEvs := r.1.map fun s => PathEvent.step s.x s.y s.idx cs
    match r.2 with
    | none => (stepEvs, none)
    | some (t, rest) =>
      let cont := runPath pts segDur segsLeft (cs + 1) t rest
      (stepEvs ++ PathEvent.segComplete cs :: cont.1, cont.2)

/-- AnimationFramework.moveAlongPath as an event trace.  A null or
too-short point list fires the overall completion callback immediately
(synchronously: the result does not depend on the frame supply); otherwise
the path is cut into points.length - 1 segments of equal duration and the
segments run strictly in order. -/
def moveAlongPath (pts : List Point) (duration : ℚ) (now : ℚ)
    (frames : List ℚ) : List PathEvent :=
  if pts.length < 2 then [PathEvent.complete]
  else
    (runPath pts (duration / ((pts.length - 1 : ℕ) : ℚ))
      (pts.length - 1) 0 now frames).1

/-- The Path class: an ordered list of points (construction validation is
typing here). -/
structure Path where
  points : List Point
deriving DecidableEq, Repr

/-- Path.getStartPoint. -/
def Path.getStartPoint (p : Path) : Point := p.points.getD 0 ⟨0, 0⟩

/-- Path.getEndPoint. -/
def Path.getEndPoint (p : Path) : Point :=
  p.points.getD (p.points.length - 1) ⟨0, 0⟩

/-- The direction argument of followPath. -/
inductive Direction where
  | forward : Direction
  | backward : Direction
deriving DecidableEq, Repr

/-- The direction switch performed by the yoyo branch of followPath. -/
def Direction.flip : Direction → Direction
  | Direction.forward => Direction.backward
  | Direction.backward => Direction.forward

/-- Observable events of one followPath invocation: update-callback
invocations (x, y, stepIndex, segmentIndex, loopCount, direction), the
completion-callback invocation (with the loopCount it is passed), and a
ghost marker recording each entry of executeAnimation with the working
point list, current direction and loop count at that moment (the marker
corresponds to no callback; it instruments the traversal boundaries). -/
inductive FollowEvent where
  | update : JsNum → JsNum → ℕ → ℕ → ℕ → Direction → FollowEvent
  | traversalStart : List Point → Direction → ℕ → FollowEvent
  | complete : ℕ → FollowEvent
deriving DecidableEq, Repr

/-- The two JavaScript arrays manipulated by followPath, as a heap of
array cells: cell 0 is path.points, cell 1 is the working copy
pathPoints created by the spread. -/
abbrev Heap := List (List Point)

/-- Array.prototype.reverse on the array cell ref: in-place reversal of
that cell only. -/
def reverseAt (heap : Heap) (ref : ℕ) : Heap :=
  heap.set ref (heap.getD ref []).reverse

/-- The callback adapter of followPath: the stepCallback it hands to
moveAlongPath forwards position, step index and segment index to the
update callback together with the current loopCount and direction; the
null segment-completion callback and the internally handled overall
completion produce no update-callback invocation. -/
def updateAdapter (lc : ℕ) (dir : Direction) : PathEvent → Option FollowEvent
  | PathEvent.step x y si gi => some (FollowEvent.update x y si gi lc dir)
  | _ => none

/-- The executeAnimation recursion of followPath.  Each call runs one full
traversal of the working point list (heap cell 1) through moveAlongPath
with a null segment-completion callback; when the traversal completes,
loopCount is incremented, and either the loop continues (with direction
flipped and the working array reversed in place when yoyo is set) or the
completion callback fires with the incremented loopCount.  fuel bounds the
recursion depth; the wrapper passes frames.length + 1, which is never
exhausted because every completed traversal consumes at least one
frame. -/
def followPathAux (duration : ℚ) (loop yoyo : Bool) :
    ℕ → Heap → ℕ → Direction → ℚ → List ℚ → List FollowEvent × Heap
  | 0, heap, _, _, _, _ => ([], heap)
  | fuel + 1, heap, loopCount, dir, now, frames =>
    let ws := heap.getD 1 []
    let r := runPath ws (duration / ((ws.length - 1 : ℕ) : ℚ))
      (ws.length - 1) 0 now frames
    let evs := FollowEvent.traversalStart ws dir loopCount ::
      r.1.filterMap (updateAdapter loopCount dir)
    match r.2 with
    | none => (evs, heap)
    | some (t, rest) =>
      if loop then
        let heap' := if yoyo then reverseAt heap 1 else heap
        let dir' := if yoyo then dir.flip else dir
        let cont := followPathAux duration loop yoyo fuel heap'
          (loopCount + 1) dir' t rest
        (evs ++ cont.1, cont.2)
      else
        (evs ++ [FollowEvent.complete (loopCount + 1)], heap)

/-- AnimationFramework.followPath.  A non-Path or null path argument is
modelled as none; hasUpdateCallback records whether an update callback was
supplied.  The three TypeError throws happen, in source order, before any
scheduling; otherwise the working array is a spread copy of path.points
(reversed in place first when direction is backward) and the traversal
loop starts.  The result is the event trace together with the final heap
(cell 0 the path's own array, cell 1 the working copy). -/
def followPath (path : Option Path) (hasUpdateCallback : Bool)
    (direction : Direction) (duration : ℚ) (loop yoyo : Bool) (now : ℚ)
    (frames : List ℚ) : Except String (List FollowEvent × Heap) :=
  match path with
  | none => Except.error "path type error"
  | some p =>
    if p.points.length < 2 then
      Except.error "Invalid path: must contain at least two points"
    else if hasUpdateCallback = false then
      Except.error "require updateCallback"
    else
      let heap0 : Heap := [p.points, p.points]
      let heap1 := if direction = Direction.forward then heap0
        else reverseAt heap0 1
      Except.ok (followPathAux duration loop yoyo (frames.length + 1) heap1
        0 direction now frames)

/-- The geometric data of a Box element used by createLink: position and
size (the construction-time validation width > 0, height > 0 is not needed
by the claims about createLink). -/
structure Box where
  x : ℚ
  y : ℚ
  width : ℚ
  height : ℚ
deriving DecidableEq, Repr

/-- The Link element: its position mirrors the path's start point. -/
structure Link where
  x : ℚ
  y : ℚ
  path : Path
  lineStyle : String
  startArrow : Bool
  endArrow : Bool
deriving DecidableEq, Repr

/-- The Link constructor: position taken from the path's start point. -/
def Link.mk' (path : Path) (lineStyle : String)
    (startArrow endArrow : Bool) : Link :=
  ⟨path.getStartPoint.x, path.getStartPoint.y, path, lineStyle,
    startArrow, endArrow⟩

/-- AnimationFramework.createLink: a two-point path from element1's center
to element2's center, wrapped in a Link. -/
def createLink (element1 element2 : Box) (lineStyle : String)
    (startArrow endArrow : Bool) : Link :=
  let path : Path := ⟨[
    ⟨element1.x + element1.width / 2, element1.y + element1.height / 2⟩,
    ⟨element2.x + element2.width / 2, element2.y + element2.height / 2⟩]⟩
  Link.mk' path lineStyle startArrow endArrow

/-- Extracts the segmentIndex argument of a segment-completion-callback
invocation. -/
def segCompleteIdx : PathEvent → Option ℕ
  | PathEvent.segComplete s => some s
  | _ => none

/-- Extracts the stepIndex argument of a step-callback invocation made for
segment j. -/
def stepIdxOfSeg (j : ℕ) : PathEvent → Option ℕ
  | PathEvent.step _ _ si s => if s = j then some si else none
  | _ => none

/-- Extracts the stepIndex argument of a moveBetweenPoints step-callback
invocation. -/
def moveStepIdx : MoveEvent → Option ℕ
  | MoveEvent.step _ _ i => some i
  | _ => none

/-- Scanning check of a moveAlongPath trace: cur is the segment whose
mover is currently running.  Every step must carry the current segment
index, every segment completion must carry the current segment index and
advances it, and the overall completion may appear only when all total
segments have completed and must be the last event. -/
def segScan (total : ℕ) : ℕ → List PathEvent → Bool
  | _, [] => true
  | cur, PathEvent.step _ _ _ s :: rest => s == cur && segScan total cur rest
  | cur, PathEvent.segComplete s :: rest =>
      s == cur && segScan total (cur + 1) rest
  | cur, PathEvent.complete :: rest => cur == total && rest.isEmpty

/-- Direction after j completed yoyo traversals. -/
def altDir (dir : Direction) (j : ℕ) : Direction :=
  if j % 2 = 0 then dir else dir.flip

/-- Working point list after j in-place yoyo reversals. -/
def altList (ws : List Point) (j : ℕ) : List Point :=
  if j % 2 = 0 then ws else ws.reverse

/-! Basic facts about the JsNum arithmetic used by the movers. -/

theorem lerp_fin (s e q : ℚ) :
    calculateLinearInterpolation s e (JsNum.fin q) =
      JsNum.fin (s + (e - s) * q) := rfl

theorem lerp_one (s e : ℚ) :
    calculateLinearInterpolation s e (JsNum.fin 1) = JsNum.fin e := by
  rw [lerp_fin]
  norm_num

theorem progress_of_ne (a d : ℚ) (hd : d ≠ 0) :
    jsMin (jsDiv a d) (JsNum.fin 1) = JsNum.fin (min (a / d) 1) := by
  simp [jsDiv, hd, jsMin]

theorem jsLtb_fin (a b : ℚ) :
    jsLtb (JsNum.fin a) (JsNum.fin b) = decide (a < b) := rfl

/-! Lemmas about the single-segment animate loop runMove. -/

/-- The stepIndex arguments of the step-callback invocations count up by
exactly one from the initial counter value: P1, progress monotonicity. -/
theorem runMove_idx (sp ep : Point) (d st : ℚ) :
    ∀ (fs : List ℚ) (i : ℕ),
      (runMove sp ep d st i fs).1.map Step.idx =
        List.range' i (runMove sp ep d st i fs).1.length
  | [], _ => rfl
  | t :: rest, i => by
    simp only [runMove]
    split
    · have ih := runMove_idx sp ep d st rest (i + 1)
      simp only [List.map_cons, List.length_cons, List.range'_succ, ih]
    · simp [List.range'_succ]

/-- With a positive duration and a frame at or past startTime + duration,
the loop completes, and the terminal step interpolates at progress
exactly 1, hence lands exactly on the end point. -/
theorem runMove_terminal (sp ep : Point) (d st : ℚ) (hd : 0 < d) :
    ∀ (fs : List ℚ) (i : ℕ), (∃ t ∈ fs, st + d ≤ t) →
      ∃ init t rest, runMove sp ep d st i fs =
        (init ++ [⟨JsNum.fin ep.x, JsNum.fin ep.y, i + init.length⟩],
          some (t, rest))
  | [], _, h => absurd h (by simp)
  | t0 :: rest, i, h => by
    have hprog : jsMin (jsDiv (t0 - st) d) (JsNum.fin 1) =
        JsNum.fin (min ((t0 - st) / d) 1) := progress_of_ne _ _ (ne_of_gt hd)
    by_cases hc : (t0 - st) / d < 1
    · have hwit : ∃ t ∈ rest, st + d ≤ t := by
        rcases h with ⟨t, ht, hle⟩
        rcases List.mem_cons.mp ht with rfl | hmem
        · exfalso
          have h1 : t - st < d := (div_lt_one hd).mp hc
          linarith
        · exact ⟨t, hmem, hle⟩
      obtain ⟨init', t, rest', heq⟩ :=
        runMove_terminal sp ep d st hd rest (i + 1) hwit
      rw [show i + 1 + init'.length = i + (init'.length + 1) by omega] at heq
      have hcond : jsLtb (jsMin (jsDiv (t0 - st) d) (JsNum.fin 1))
          (JsNum.fin 1) = true := by
        rw [hprog, jsLtb_fin]
        simp [min_lt_iff, hc]
      refine ⟨⟨calculateLinearInterpolation sp.x ep.x
          (jsMin (jsDiv (t0 - st) d) (JsNum.fin 1)),
        calculateLinearInterpolation sp.y ep.y
          (jsMin (jsDiv (t0 - st) d) (JsNum.fin 1)), i⟩ :: init', t, rest', ?_⟩
      simp only [runMove, hcond, if_true, heq, List.cons_append,
        List.length_cons]
    · have h1 : (1 : ℚ) ≤ (t0 - st) / d := le_of_not_lt hc
      have hmin : min ((t0 - st) / d) 1 = 1 := min_eq_right h1
      have hcond : jsLtb (jsMin (jsDiv (t0 - st) d) (JsNum.fin 1))
          (JsNum.fin 1) = false := by
        rw [hprog, jsLtb_fin, hmin]
        simp
      refine ⟨[], t0, rest, ?_⟩
      simp only [runMove, hcond, Bool.false_eq_true, if_false]
      rw [hprog, hmin, lerp_one, lerp_one]
      simp

/-- With a negative duration, progress is nonpositive (hence below 1) on
every frame at or after startTime, so the animate loop reschedules on
every supplied frame and never reaches the completion branch. -/
theorem runMove_neg (sp ep : Point) (d st : ℚ) (hd : d < 0) :
    ∀ (fs : List ℚ) (i : ℕ), (∀ t ∈ fs, st ≤ t) →
      (runMove sp ep d st i fs).2 = none ∧
        (runMove sp ep d st i fs).1.length = fs.length
  | [], _, _ => ⟨rfl, rfl⟩
  | t0 :: rest, i, h => by
    have hprog : jsMin (jsDiv (t0 - st) d) (JsNum.fin 1) =
        JsNum.fin (min ((t0 - st) / d) 1) := progress_of_ne _ _ (ne_of_lt hd)
    have h0 : (0 : ℚ) ≤ t0 - st := by
      have := h t0 (by simp)
      linarith
    have hdiv : (t0 - st) / d ≤ 0 := div_nonpos_of_nonneg_of_nonpos h0 hd.le
    have hcond : jsLtb (jsMin (jsDiv (t0 - st) d) (JsNum.fin 1))
        (JsNum.fin 1) = true := by
      rw [hprog, jsLtb_fin]
      simp only [decide_eq_true_eq, min_lt_iff]
      left
      linarith
    have ih := runMove_neg sp ep d st hd rest i.succ
      (fun t ht => h t (List.mem_cons_of_mem _ ht))
    simp only [runMove, hcond, if_true]
    exact ⟨ih.1, by simp [ih.2]⟩

/-- With duration zero and a first frame at or after startTime, progress is
min of either +Infinity or NaN with 1, the comparison progress < 1 is
false either way, and the loop completes on that very first frame. -/
theorem runMove_zero (sp ep : Point) (st t0 : ℚ) (rest : List ℚ) (i : ℕ)
    (h : st ≤ t0) :
    ∃ x y, runMove sp ep 0 st i (t0 :: rest) = ([⟨x, y, i⟩], some (t0, rest)) := by
  have hcond : jsLtb (jsMin (jsDiv (t0 - st) 0) (JsNum.fin 1))
      (JsNum.fin 1) = false := by
    rcases lt_or_eq_of_le h with hlt | hEq
    · have : jsDiv (t0 - st) 0 = JsNum.posInf := by
        simp [jsDiv, sub_pos.mpr hlt]
      rw [this]
      rfl
    · have : jsDiv (t0 - st) 0 = JsNum.nan := by
        simp [jsDiv, ← hEq]
      rw [this]
      rfl
  simp only [runMove, hcond, Bool.false_eq_true, if_false]
  exact ⟨_, _, rfl⟩

/-- The trace image of a list of steps contains no completion event. -/
theorem complete_not_mem_map_steps (l : List Step) :
    MoveEvent.complete ∉ l.map (fun s => MoveEvent.step s.x s.y s.idx) := by
  simp [List.mem_map]

/-- The trace image of a list of steps counts no completion event. -/
theorem count_complete_map_steps (l : List Step) :
    (l.map (fun s => MoveEvent.step s.x s.y s.idx)).count
      MoveEvent.complete = 0 := by
  rw [List.count_eq_zero]
  exact complete_not_mem_map_steps l

/-- A moveBetweenPoints trace never fires completion twice. -/
theorem moveBetweenPoints_count_le_one (sp ep : Point) (d st : ℚ)
    (fs : List ℚ) :
    (moveBetweenPoints sp ep d st fs).count MoveEvent.complete ≤ 1 := by
  rcases h : (runMove sp ep d st 0 fs).2 with _ | q <;>
    simp [moveBetweenPoints, h, List.count_append, count_complete_map_steps]

/-- A moveBetweenPoints call with negative duration never reaches its
completion callback, whatever frames the scheduler supplies. -/
theorem moveBetweenPoints_neg_no_complete (sp ep : Point) (d st : ℚ)
    (hd : d < 0) (fs : List ℚ) (hfs : ∀ t ∈ fs, st ≤ t) :
    MoveEvent.complete ∉ moveBetweenPoints sp ep d st fs := by
  have h := runMove_neg sp ep d st hd fs 0 hfs
  simp [moveBetweenPoints, h.1, complete_not_mem_map_steps]

/-! Lemmas about the multi-segment walker runPath. -/

/-- The trace image of a segment's steps contains no overall completion. -/
theorem pcomplete_not_mem_map_steps (l : List Step) (cs : ℕ) :
    PathEvent.complete ∉
      l.map (fun s => PathEvent.step s.x s.y s.idx cs) := by
  simp [List.mem_map]

/-- Scanning steps of the current segment leaves the scan state
unchanged. -/
theorem segScan_map_steps (total cur : ℕ) (l : List Step)
    (rest : List PathEvent) :
    segScan total cur
      ((l.map fun s => PathEvent.step s.x s.y s.idx cur) ++ rest) =
      segScan total cur rest := by
  induction l with
  | nil => rfl
  | cons s l ih => simp [segScan, ih]

/-- Every runPath trace scans correctly: steps carry the running segment's
index, segment completions arrive in increasing order, and the overall
completion can only be the final event, after all segments completed. -/
theorem runPath_segScan (pts : List Point) (sd : ℚ) :
    ∀ (k cs : ℕ) (now : ℚ) (fs : List ℚ),
      segScan (cs + k) cs (runPath pts sd k cs now fs).1 = true
  | 0, cs, now, fs => by simp [runPath, segScan]
  | k + 1, cs, now, fs => by
    simp only [runPath]
    rcases h : (runMove (pts.getD cs ⟨0, 0⟩) (pts.getD (cs + 1) ⟨0, 0⟩)
        sd now 0 fs).2 with _ | ⟨t, rest⟩
    · have hnil := segScan_map_steps (cs + (k + 1)) cs
        (runMove (pts.getD cs ⟨0, 0⟩) (pts.getD (cs + 1) ⟨0, 0⟩)
          sd now 0 fs).1 []
      simp only [h]
      simpa using hnil
    · have ih := runPath_segScan pts sd k (cs + 1) t rest
      simp only [h, segScan_map_steps, segScan]
      rw [show cs + (k + 1) = cs + 1 + k by omega] at *
      simp [ih]

/-- When the walk completes, the segment-completion callbacks fired are
exactly cs, cs+1, ... for the k segments walked, in increasing order. -/
theorem runPath_segComplete_range (pts : List Point) (sd : ℚ) :
    ∀ (k cs : ℕ) (now : ℚ) (fs : List ℚ) (q : ℚ × List ℚ),
      (runPath pts sd k cs now fs).2 = some q →
      (runPath pts sd k cs now fs).1.filterMap segCompleteIdx =
        List.range' cs k
  | 0, cs, now, fs, q, _ => by simp [runPath, segCompleteIdx]
  | k + 1, cs, now, fs, q, hq => by
    simp only [runPath] at hq ⊢
    rcases h : (runMove (pts.getD cs ⟨0, 0⟩) (pts.getD (cs + 1) ⟨0, 0⟩)
        sd now 0 fs).2 with _ | ⟨t, rest⟩
    · rw [h] at hq
      simp at hq
    · rw [h] at hq
      simp only at hq
      have ih := runPath_segComplete_range pts sd k (cs + 1) t rest q hq
      simp only [h, List.filterMap_append, List.filterMap_map,
        List.filterMap_cons, List.range'_succ]
      simp [Function.comp, segCompleteIdx, ih]

/-- A walk that ran out of frames never fired the overall completion. -/
theorem runPath_none_no_complete (pts : List Point) (sd : ℚ) :
    ∀ (k cs : ℕ) (now : ℚ) (fs : List ℚ),
      (runPath pts sd k cs now fs).2 = none →
      PathEvent.complete ∉ (runPath pts sd k cs now fs).1
  | 0, cs, now, fs, h => by simp [runPath] at h
  | k + 1, cs, now, fs, hq => by
    simp only [runPath] at hq ⊢
    rcases h : (runMove (pts.getD cs ⟨0, 0⟩) (pts.getD (cs + 1) ⟨0, 0⟩)
        sd now 0 fs).2 with _ | ⟨t, rest⟩
    · simp only [h]
      exact pcomplete_not_mem_map_steps _ cs
    · rw [h] at hq
      simp only at hq
      have ih := runPath_none_no_complete pts sd k (cs + 1) t rest hq
      simp only [h, List.mem_append, List.mem_cons]
      rintro (hm | hm | hm)
      · exact pcomplete_not_mem_map_steps _ cs hm
      · exact PathEvent.noConfusion hm
      · exact ih hm

/-- A walk that completed fired the overall completion exactly once, as
its very last event. -/
theorem runPath_some_complete_end (pts : List Point) (sd : ℚ) :
    ∀ (k cs : ℕ) (now : ℚ) (fs : List ℚ) (q : ℚ × List ℚ),
      (runPath pts sd k cs now fs).2 = some q →
      ∃ pre, (runPath pts sd k cs now fs).1 = pre ++ [PathEvent.complete] ∧
        PathEvent.complete ∉ pre
  | 0, cs, now, fs, q, _ => ⟨[], by simp [runPath]⟩
  | k + 1, cs, now, fs, q, hq => by
    simp only [runPath] at hq ⊢
    rcases h : (runMove (pts.getD cs ⟨0, 0⟩) (pts.getD (cs + 1) ⟨0, 0⟩)
        sd now 0 fs).2 with _ | ⟨t, rest⟩
    · rw [h] at hq
      simp at hq
    · rw [h] at hq
      simp only at hq
      obtain ⟨pre, hpre, hmem⟩ :=
        runPath_some_complete_end pts sd k (cs + 1) t rest q hq
      refine ⟨(runMove (pts.getD cs ⟨0, 0⟩) (pts.getD (cs + 1) ⟨0, 0⟩)
          sd now 0 fs).1.map (fun s => PathEvent.step s.x s.y s.idx cs) ++
        PathEvent.segComplete cs :: pre, ?_, ?_⟩
      · simp only [h, hpre, List.append_assoc, List.cons_append]
      · simp only [List.mem_append, List.mem_cons]
        rintro (hm | hm | hm)
        · exact pcomplete_not_mem_map_steps _ cs hm
        · exact PathEvent.noConfusion hm
        · exact hmem hm

/-- Every step event of a walk starting at segment cs belongs to segment
cs or a later one. -/
theorem runPath_step_seg (pts : List Point) (sd : ℚ) :
    ∀ (k cs : ℕ) (now : ℚ) (fs : List ℚ) (x y : JsNum) (si s : ℕ),
      PathEvent.step x y si s ∈ (runPath pts sd k cs now fs).1 → cs ≤ s
  | 0, cs, now, fs, x, y, si, s, h => by simp [runPath] at h
  | k + 1, cs, now, fs, x, y, si, s, hm => by
    simp only [runPath] at hm
    rcases h : (runMove (pts.getD cs ⟨0, 0⟩) (pts.getD (cs + 1) ⟨0, 0⟩)
        sd now 0 fs).2 with _ | ⟨t, rest⟩
    · rw [h] at hm
      simp only [List.mem_map] at hm
      obtain ⟨st', _, hst⟩ := hm
      cases hst
      exact le_refl cs
    · rw [h] at hm
      simp only [List.mem_append, List.mem_cons, List.mem_map] at hm
      rcases hm with ⟨st', _, hst⟩ | hm | hm
      · cases hst
        exact le_refl cs
      · exact PathEvent.noConfusion hm
      · have := runPath_step_seg pts sd k (cs + 1) t rest x y si s hm
        omega

/-- Filtering for segment j's step indices yields nothing on a trace
whose step events all avoid segment j. -/
theorem filterMap_stepIdx_eq_nil (j : ℕ) :
    ∀ (l : List PathEvent),
      (∀ x y si s, PathEvent.step x y si s ∈ l → s ≠ j) →
      l.filterMap (stepIdxOfSeg j) = []
  | [], _ => rfl
  | e :: l, h => by
    have ht := filterMap_stepIdx_eq_nil j l
      (fun x y si s hm => h x y si s (List.mem_cons_of_mem _ hm))
    cases e with
    | step x y si s =>
      have hs : s ≠ j := h x y si s (by simp)
      simp [List.filterMap_cons, stepIdxOfSeg, hs, ht]
    | segComplete s => simp [List.filterMap_cons, stepIdxOfSeg, ht]
    | complete => simp [List.filterMap_cons, stepIdxOfSeg, ht]

/-- Filtering for the indices of the running segment's own mapped steps
recovers exactly the step counter list. -/
theorem filterMap_stepIdx_map_self (cs : ℕ) (l : List Step) :
    (l.map fun s => PathEvent.step s.x s.y s.idx cs).filterMap
      (stepIdxOfSeg cs) = l.map Step.idx := by
  induction l with
  | nil => rfl
  | cons s l ih => simp [List.filterMap_cons, stepIdxOfSeg, ih]

/-- Filtering for another segment's indices skips all mapped steps of the
running segment. -/
theorem filterMap_stepIdx_map_ne (cs j : ℕ) (hj : cs ≠ j) (l : List Step) :
    (l.map fun s => PathEvent.step s.x s.y s.idx cs).filterMap
      (stepIdxOfSeg j) = [] := by
  induction l with
  | nil => rfl
  | cons s l ih => simp [List.filterMap_cons, stepIdxOfSeg, hj, ih]

/-- Within any one segment of a walk, the stepIndex arguments delivered to
the step callback are 0, 1, 2, ... with no gaps: the counter is local to
the segment. -/
theorem runPath_stepIdx (pts : List Point) (sd : ℚ) (j : ℕ) :
    ∀ (k cs : ℕ) (now : ℚ) (fs : List ℚ),
      ∃ m, (runPath pts sd k cs now fs).1.filterMap (stepIdxOfSeg j) =
        List.range m
  | 0, cs, now, fs => ⟨0, by simp [runPath, stepIdxOfSeg]⟩
  | k + 1, cs, now, fs => by
    simp only [runPath]
    rcases h : (runMove (pts.getD cs ⟨0, 0⟩) (pts.getD (cs + 1) ⟨0, 0⟩)
        sd now 0 fs).2 with _ | ⟨t, rest⟩
    all_goals by_cases hj : cs = j
    · subst hj
      refine ⟨(runMove (pts.getD cs ⟨0, 0⟩) (pts.getD (cs + 1) ⟨0, 0⟩)
          sd now 0 fs).1.length, ?_⟩
      simp only [h, filterMap_stepIdx_map_self]
      rw [runMove_idx (pts.getD cs ⟨0, 0⟩) (pts.getD (cs + 1) ⟨0, 0⟩)
        sd now fs 0, List.range_eq_range']
    · exact ⟨0, by simp [h, filterMap_stepIdx_map_ne cs j hj]⟩
    · subst hj
      refine ⟨(runMove (pts.getD cs ⟨0, 0⟩) (pts.getD (cs + 1) ⟨0, 0⟩)
          sd now 0 fs).1.length, ?_⟩
      have hcont : (runPath pts sd k (cs + 1) t rest).1.filterMap
          (stepIdxOfSeg cs) = [] :=
        filterMap_stepIdx_eq_nil cs _
          (fun x y si s hm => by
            have := runPath_step_seg pts sd k (cs + 1) t rest x y si s hm
            omega)
      simp only [h, List.filterMap_append, List.filterMap_cons,
        filterMap_stepIdx_map_self, stepIdxOfSeg, hcont]
      simp only [reduceIte, List.append_nil]
      rw [runMove_idx (pts.getD cs ⟨0, 0⟩) (pts.getD (cs + 1) ⟨0, 0⟩)
        sd now fs 0, List.range_eq_range']
    · obtain ⟨m, hm⟩ := runPath_stepIdx pts sd j k (cs + 1) t rest
      refine ⟨m, ?_⟩
      simp only [h, List.filterMap_append, List.filterMap_cons,
        filterMap_stepIdx_map_ne cs j hj, stepIdxOfSeg, hm]
      simp

/-- In any correctly scanning trace, a step event of segment s is preceded
by the segment-completion events of all segments from the scan origin up
to s - 1: a segment's steps begin only after the previous segment
completed. -/
theorem segScan_split_step (total : ℕ) :
    ∀ (l1 : List PathEvent) (cur : ℕ) (x y : JsNum) (si s : ℕ)
      (l2 : List PathEvent),
      segScan total cur (l1 ++ PathEvent.step x y si s :: l2) = true →
      cur ≤ s ∧ ∀ i, cur ≤ i → i < s → PathEvent.segComplete i ∈ l1
  | [], cur, x, y, si, s, l2, h => by
    simp only [List.nil_append, segScan, Bool.and_eq_true, beq_iff_eq] at h
    obtain ⟨hs, -⟩ := h
    subst hs
    exact ⟨le_refl _, fun i hci his => ((by omega : False)).elim⟩
  | e :: l1, cur, x, y, si, s, l2, h => by
    cases e with
    | step x0 y0 si0 s0 =>
      simp only [List.cons_append, segScan, Bool.and_eq_true,
        beq_iff_eq] at h
      obtain ⟨hcs, hmem⟩ :=
        segScan_split_step total l1 cur x y si s l2 h.2
      exact ⟨hcs, fun i hci his =>
        List.mem_cons_of_mem _ (hmem i hci his)⟩
    | segComplete s0 =>
      simp only [List.cons_append, segScan, Bool.and_eq_true,
        beq_iff_eq] at h
      obtain ⟨hs0, h⟩ := h
      subst hs0
      obtain ⟨hcs, hmem⟩ :=
        segScan_split_step total l1 (s0 + 1) x y si s l2 h
      refine ⟨by omega, fun i hci his => ?_⟩
      rcases eq_or_lt_of_le hci with rfl | hlt
      · exact List.mem_cons_self _ _
      · exact List.mem_cons_of_mem _ (hmem i (by omega) his)
    | complete =>
      simp only [List.cons_append, segScan, Bool.and_eq_true,
        beq_iff_eq] at h
      obtain ⟨-, h⟩ := h
      simp at h

/-! Lemmas about the followPath player. -/

/-- In-place reversal of the working array touches only heap cell 1. -/
theorem reverseAt_cons2 (a b : List Point) (tl : Heap) :
    reverseAt (a :: b :: tl) 1 = a :: b.reverse :: tl := by
  simp [reverseAt, List.set]

/-- Direction flipping is an involution. -/
theorem Direction.flip_flip (d : Direction) : d.flip.flip = d := by
  cases d <;> rfl

/-- Alternation seeded with a flipped direction is alternation shifted by
one traversal. -/
theorem altDir_flip_shift (d : Direction) (j : ℕ) :
    altDir d.flip j = altDir d (j + 1) := by
  rcases Nat.mod_two_eq_zero_or_one j with h | h
  · have h1 : (j + 1) % 2 = 1 := by omega
    simp [altDir, h, h1]
  · have h1 : (j + 1) % 2 = 0 := by omega
    simp [altDir, h, h1, Direction.flip_flip]

/-- Alternation seeded with a reversed list is alternation shifted by one
traversal. -/
theorem altList_reverse_shift (ws : List Point) (j : ℕ) :
    altList ws.reverse j = altList ws (j + 1) := by
  rcases Nat.mod_two_eq_zero_or_one j with h | h
  · have h1 : (j + 1) % 2 = 1 := by omega
    simp [altList, h, h1]
  · have h1 : (j + 1) % 2 = 0 := by omega
    simp [altList, h, h1]

/-- Stepping the direction alternation flips the direction. -/
theorem altDir_succ (d : Direction) (j : ℕ) :
    altDir d (j + 1) = (altDir d j).flip := by
  rcases Nat.mod_two_eq_zero_or_one j with h | h
  · have h1 : (j + 1) % 2 = 1 := by omega
    simp [altDir, h, h1]
  · have h1 : (j + 1) % 2 = 0 := by omega
    simp [altDir, h, h1, Direction.flip_flip]

/-- Stepping the list alternation reverses the working list. -/
theorem altList_succ (ws : List Point) (j : ℕ) :
    altList ws (j + 1) = (altList ws j).reverse := by
  rcases Nat.mod_two_eq_zero_or_one j with h | h
  · have h1 : (j + 1) % 2 = 1 := by omega
    simp [altList, h, h1]
  · have h1 : (j + 1) % 2 = 0 := by omega
    simp [altList, h, h1]

/-- The adapter only produces update events carrying the current
loopCount and direction. -/
theorem updateAdapter_mem (l : List PathEvent) (lc : ℕ) (dir : Direction)
    (x y : JsNum) (si gi lc' : ℕ) (dr : Direction)
    (h : FollowEvent.update x y si gi lc' dr ∈
      l.filterMap (updateAdapter lc dir)) : lc' = lc ∧ dr = dir := by
  obtain ⟨e, -, he⟩ := List.mem_filterMap.mp h
  cases e <;> simp [updateAdapter] at he
  obtain ⟨-, -, -, -, h5, h6⟩ := he
  exact ⟨h5.symm, h6.symm⟩

/-- The adapter never produces a traversal marker. -/
theorem traversalStart_not_mem_adapter (l : List PathEvent) (lc : ℕ)
    (dir : Direction) (p : List Point) (dr : Direction) (lc' : ℕ) :
    FollowEvent.traversalStart p dr lc' ∉
      l.filterMap (updateAdapter lc dir) := by
  intro h
  obtain ⟨e, -, he⟩ := List.mem_filterMap.mp h
  cases e <;> simp [updateAdapter] at he

/-- The adapter never produces a completion event: followPath passes a
null segment-completion callback and handles the overall completion
itself. -/
theorem complete_not_mem_adapter (l : List PathEvent) (lc : ℕ)
    (dir : Direction) (n : ℕ) :
    FollowEvent.complete n ∉ l.filterMap (updateAdapter lc dir) := by
  intro h
  obtain ⟨e, -, he⟩ := List.mem_filterMap.mp h
  cases e <;> simp [updateAdapter] at he

/-- With loop disabled, executeAnimation runs a single traversal: its
trace is the traversal marker, the adapted updates, and, exactly when the
traversal finished within the frame supply, one completion event carrying
the incremented loop count 1. -/
theorem followPathAux_noloop (D : ℚ) (yoyo : Bool) (fuel : ℕ) (heap : Heap)
    (lc0 : ℕ) (dir0 : Direction) (now : ℚ) (fs : List ℚ) :
    (followPathAux D false yoyo (fuel + 1) heap lc0 dir0 now fs).1 =
      FollowEvent.traversalStart (heap.getD 1 []) dir0 lc0 ::
        (runPath (heap.getD 1 [])
          (D / (((heap.getD 1 []).length - 1 : ℕ) : ℚ))
          ((heap.getD 1 []).length - 1) 0 now fs).1.filterMap
          (updateAdapter lc0 dir0) ++
        (if (runPath (heap.getD 1 [])
            (D / (((heap.getD 1 []).length - 1 : ℕ) : ℚ))
            ((heap.getD 1 []).length - 1) 0 now fs).2.isSome then
          [FollowEvent.complete (lc0 + 1)] else []) := by
  simp only [followPathAux]
  rcases h : (runPath (heap.getD 1 [])
      (D / (((heap.getD 1 []).length - 1 : ℕ) : ℚ))
      ((heap.getD 1 []).length - 1) 0 now fs).2 with _ | q
  · simp [h]
  · simp [h]

/-- Characterization of the traversal markers of a yoyo loop: the j-th
traversal after entry works on the initial working list reversed j times
and runs in the initial direction flipped j times. -/
theorem followPathAux_yoyo_start (D : ℚ) :
    ∀ (fuel : ℕ) (a b : List Point) (tl : Heap) (lc0 : ℕ) (dir0 : Direction)
      (now : ℚ) (fs : List ℚ) (p : List Point) (dr : Direction) (lc : ℕ),
      FollowEvent.traversalStart p dr lc ∈
        (followPathAux D true true fuel (a :: b :: tl) lc0 dir0 now fs).1 →
      ∃ j, lc = lc0 + j ∧ p = altList b j ∧ dr = altDir dir0 j
  | 0, a, b, tl, lc0, dir0, now, fs, p, dr, lc, h => by
    simp [followPathAux] at h
  | fuel + 1, a, b, tl, lc0, dir0, now, fs, p, dr, lc, h => by
    simp only [followPathAux, List.getD_cons_succ, List.getD_cons_zero] at h
    rcases hr : (runPath b (D / ((b.length - 1 : ℕ) : ℚ)) (b.length - 1)
        0 now fs).2 with _ | ⟨t, rest⟩
    · rw [hr] at h
      simp only [List.mem_cons] at h
      rcases h with h | h
      · injection h with h1 h2 h3
        exact ⟨0, by omega, by simp [altList, h1], by simp [altDir, h2]⟩
      · exact absurd h (traversalStart_not_mem_adapter _ _ _ _ _ _)
    · rw [hr] at h
      simp only [if_true, reverseAt_cons2, List.cons_append, List.mem_cons,
        List.mem_append] at h
      rcases h with h | h | h
      · injection h with h1 h2 h3
        exact ⟨0, by omega, by simp [altList, h1], by simp [altDir, h2]⟩
      · exact absurd h (traversalStart_not_mem_adapter _ _ _ _ _ _)
      · obtain ⟨j, hlc, hp, hdr⟩ := followPathAux_yoyo_start D fuel a
          b.reverse tl (lc0 + 1) dir0.flip t rest p dr lc h
        exact ⟨j + 1, by omega, by rw [hp, altList_reverse_shift],
          by rw [hdr, altDir_flip_shift]⟩

/-- Characterization of the update events of a yoyo loop: an update
reported with loop count lc0 + j carries the initial direction flipped j
times, so the reported direction alternates across traversals. -/
theorem followPathAux_yoyo_update (D : ℚ) :
    ∀ (fuel : ℕ) (a b : List Point) (tl : Heap) (lc0 : ℕ) (dir0 : Direction)
      (now : ℚ) (fs : List ℚ) (x y : JsNum) (si gi lc : ℕ) (dr : Direction),
      FollowEvent.update x y si gi lc dr ∈
        (followPathAux D true true fuel (a :: b :: tl) lc0 dir0 now fs).1 →
      ∃ j, lc = lc0 + j ∧ dr = altDir dir0 j
  | 0, a, b, tl, lc0, dir0, now, fs, x, y, si, gi, lc, dr, h => by
    simp [followPathAux] at h
  | fuel + 1, a, b, tl, lc0, dir0, now, fs, x, y, si, gi, lc, dr, h => by
    simp only [followPathAux, List.getD_cons_succ, List.getD_cons_zero] at h
    rcases hr : (runPath b (D / ((b.length - 1 : ℕ) : ℚ)) (b.length - 1)
        0 now fs).2 with _ | ⟨t, rest⟩
    · rw [hr] at h
      simp only [List.mem_cons] at h
      rcases h with h | h
      · exact absurd h (by simp)
      · obtain ⟨hlc, hdr⟩ := updateAdapter_mem _ _ _ _ _ _ _ _ _ h
        exact ⟨0, by omega, by simp [altDir, hdr]⟩
    · rw [hr] at h
      simp only [if_true, reverseAt_cons2, List.cons_append, List.mem_cons,
        List.mem_append] at h
      rcases h with h | h | h
      · exact absurd h (by simp)
      · obtain ⟨hlc, hdr⟩ := updateAdapter_mem _ _ _ _ _ _ _ _ _ h
        exact ⟨0, by omega, by simp [altDir, hdr]⟩
      · obtain ⟨j, hlc, hdr⟩ := followPathAux_yoyo_update D fuel a
          b.reverse tl (lc0 + 1) dir0.flip t rest x y si gi lc dr h
        exact ⟨j + 1, by omega, by rw [hdr, altDir_flip_shift]⟩

/-- Whatever the player does, it only ever rewrites heap cell 1 (the
working copy): cell 0, the path's own points array, is untouched. -/
theorem followPathAux_heap (D : ℚ) (loop yoyo : Bool) :
    ∀ (fuel : ℕ) (a b : List Point) (tl : Heap) (lc0 : ℕ) (dir0 : Direction)
      (now : ℚ) (fs : List ℚ),
      ∃ w, (followPathAux D loop yoyo fuel (a :: b :: tl) lc0 dir0
        now fs).2 = a :: w :: tl
  | 0, a, b, tl, lc0, dir0, now, fs => ⟨b, rfl⟩
  | fuel + 1, a, b, tl, lc0, dir0, now, fs => by
    simp only [followPathAux, List.getD_cons_succ, List.getD_cons_zero]
    rcases hr : (runPath b (D / ((b.length - 1 : ℕ) : ℚ)) (b.length - 1)
        0 now fs).2 with _ | ⟨t, rest⟩
    · exact ⟨b, by simp [hr]⟩
    · simp only [hr]
      cases loop with
      | false => exact ⟨b, by simp⟩
      | true =>
        cases yoyo with
        | false =>
          obtain ⟨w, hw⟩ := followPathAux_heap D true false fuel a b tl
            (lc0 + 1) dir0 t rest
          exact ⟨w, by simp [hw]⟩
        | true =>
          obtain ⟨w, hw⟩ := followPathAux_heap D true true fuel a
            b.reverse tl (lc0 + 1) dir0.flip t rest
          exact ⟨w, by simp [reverseAt_cons2, hw]⟩

/-- Filtering the step indices out of a mapped step trace recovers the
step counter list. -/
theorem filterMap_moveStepIdx_map (l : List Step) :
    (l.map fun s => MoveEvent.step s.x s.y s.idx).filterMap moveStepIdx =
      l.map Step.idx := by
  induction l with
  | nil => rfl
  | cons s l ih => simp [List.filterMap_cons, moveStepIdx, ih]

/-!
The claims.
-/

/-- C1: a point-to-point move with positive duration, given a frame at or
past startTime + duration, delivers as its last step the end point
exactly (the step where progress reaches 1), and the completion callback
fires exactly once, immediately after that terminal step — never before
it and never twice. -/
theorem C1_moveBetweenPoints_terminal (sp ep : Point) (d st : ℚ)
    (fs : List ℚ) (hd : 0 < d) (hlive : ∃ t ∈ fs, st + d ≤ t) :
    ∃ pre, moveBetweenPoints sp ep d st fs =
        pre ++ [MoveEvent.step (JsNum.fin ep.x) (JsNum.fin ep.y) pre.length,
          MoveEvent.complete] ∧
      MoveEvent.complete ∉ pre ∧
      (moveBetweenPoints sp ep d st fs).count MoveEvent.complete = 1 := by
  obtain ⟨init, t, rest, heq⟩ := runMove_terminal sp ep d st hd fs 0 hlive
  refine ⟨init.map (fun s => MoveEvent.step s.x s.y s.idx), ?_, ?_, ?_⟩
  · simp [moveBetweenPoints, heq, List.map_append, List.append_assoc]
  · exact complete_not_mem_map_steps init
  · simp [moveBetweenPoints, heq, List.map_append, List.count_append,
      count_complete_map_steps, List.count_cons]

/-- C1 witness: the move from (0,0) to (10,0) with duration 1 started at
time 0 and given frames at 1/2 and 1 ends exactly at (10,0) and completes
once. -/
theorem C1_witness :
    ((0 : ℚ) < 1 ∧ ∃ t ∈ ([1/2, 1] : List ℚ), (0 : ℚ) + 1 ≤ t) ∧
    (∃ pre, moveBetweenPoints ⟨0, 0⟩ ⟨10, 0⟩ 1 0 [1/2, 1] =
        pre ++ [MoveEvent.step (JsNum.fin 10) (JsNum.fin 0) pre.length,
          MoveEvent.complete] ∧
      MoveEvent.complete ∉ pre ∧
      (moveBetweenPoints ⟨0, 0⟩ ⟨10, 0⟩ 1 0 [1/2, 1]).count
        MoveEvent.complete = 1) :=
  ⟨⟨by norm_num, 1, by norm_num, by norm_num⟩,
    C1_moveBetweenPoints_terminal ⟨0, 0⟩ ⟨10, 0⟩ 1 0 [1/2, 1] (by norm_num)
      ⟨1, by norm_num, by norm_num⟩⟩

/-- C5 counterexample: a moveBetweenPoints call with duration -1 never
reaches its completion callback under any schedule of frames (none
earlier than the start time), because progress stays negative forever:
contrary to the claim, the move does not terminate for a negative
duration. -/
theorem C5_cex_neg_duration_runs_forever :
    ¬ movesToCompletion ⟨0, 0⟩ ⟨10, 0⟩ (-1) 0 := by
  rintro ⟨fs, hfs, hmem⟩
  exact moveBetweenPoints_neg_no_complete _ _ _ _ (by norm_num) fs hfs hmem

/-- C5 amended: for any nonpositive duration completion fires at most
once; with duration exactly 0 the move terminates on its first frame
(one step, then the single completion); with negative duration the
completion callback never fires at all — the animation keeps
rescheduling and does not terminate. -/
theorem C5_amended_nonpos_duration (sp ep : Point) (d st : ℚ)
    (fs : List ℚ) (hd : d ≤ 0) (hfs : ∀ t ∈ fs, st ≤ t) :
    (moveBetweenPoints sp ep d st fs).count MoveEvent.complete ≤ 1 ∧
    (d = 0 → ∀ t0 rest, fs = t0 :: rest →
      ∃ x y, moveBetweenPoints sp ep d st fs =
        [MoveEvent.step x y 0, MoveEvent.complete]) ∧
    (d < 0 → MoveEvent.complete ∉ moveBetweenPoints sp ep d st fs) := by
  refine ⟨moveBetweenPoints_count_le_one sp ep d st fs, ?_, ?_⟩
  · rintro rfl t0 rest rfl
    have ht0 : st ≤ t0 := hfs t0 (by simp)
    obtain ⟨x, y, hx⟩ := runMove_zero sp ep st t0 rest 0 ht0
    exact ⟨x, y, by simp [moveBetweenPoints, hx]⟩
  · intro hneg
    exact moveBetweenPoints_neg_no_complete sp ep d st hneg fs hfs

/-- C5 witness: duration 0, one frame at time 1. -/
theorem C5_amended_witness :
    ((0 : ℚ) ≤ 0 ∧ ∀ t ∈ ([1] : List ℚ), (0 : ℚ) ≤ t) ∧
    ((moveBetweenPoints ⟨0, 0⟩ ⟨10, 0⟩ 0 0 [1]).count
        MoveEvent.complete ≤ 1 ∧
      ((0 : ℚ) = 0 → ∀ t0 rest, ([1] : List ℚ) = t0 :: rest →
        ∃ x y, moveBetweenPoints ⟨0, 0⟩ ⟨10, 0⟩ 0 0 [1] =
          [MoveEvent.step x y 0, MoveEvent.complete]) ∧
      ((0 : ℚ) < 0 →
        MoveEvent.complete ∉ moveBetweenPoints ⟨0, 0⟩ ⟨10, 0⟩ 0 0 [1])) :=
  ⟨⟨le_refl 0, by intro t ht; rw [List.mem_singleton] at ht; subst ht; norm_num⟩,
    C5_amended_nonpos_duration ⟨0, 0⟩ ⟨10, 0⟩ 0 0 [1] (le_refl 0)
      (by intro t ht; rw [List.mem_singleton] at ht; subst ht; norm_num)⟩

/-- C6: moveAlongPath on an empty or single-point list (the model of a
null or too-short points argument) raises no error, never invokes the
step or segment-completion callbacks, and fires the overall completion
callback exactly once, synchronously: the trace is the single completion
event, independent of any frames supplied later. -/
theorem C6_moveAlongPath_degenerate (pts : List Point) (d now : ℚ)
    (fs : List ℚ) (h : pts.length < 2) :
    moveAlongPath pts d now fs = [PathEvent.complete] := by
  simp [moveAlongPath, h]

/-- C6 witness: the empty path completes immediately. -/
theorem C6_witness :
    (([] : List Point).length < 2) ∧
      moveAlongPath [] 1000 0 [1, 2, 3] = [PathEvent.complete] :=
  ⟨by decide, C6_moveAlongPath_degenerate [] 1000 0 [1, 2, 3] (by decide)⟩

/-- C7: followPath with an invalid path (null / not a Path, or fewer than
two points) or without an update callback fails synchronously with a
TypeError before any scheduling: the result is an error and no callback
trace exists. -/
theorem C7_followPath_validation (path? : Option Path) (hasCb : Bool)
    (dir : Direction) (d : ℚ) (loop yoyo : Bool) (now : ℚ) (fs : List ℚ)
    (h : path? = none ∨ (∃ p, path? = some p ∧ p.points.length < 2) ∨
      hasCb = false) :
    ∃ msg, followPath path? hasCb dir d loop yoyo now fs =
      Except.error msg := by
  rcases h with rfl | ⟨p, rfl, hp⟩ | rfl
  · exact ⟨"path type error", rfl⟩
  · exact ⟨"Invalid path: must contain at least two points",
      by simp [followPath, hp]⟩
  · cases path? with
    | none => exact ⟨"path type error", rfl⟩
    | some p =>
      by_cases hp : p.points.length < 2
      · exact ⟨"Invalid path: must contain at least two points",
          by simp [followPath, hp]⟩
      · exact ⟨"require updateCallback", by simp [followPath, hp]⟩

/-- C7 witness: a null path is rejected. -/
theorem C7_witness :
    ∃ msg, followPath none true Direction.forward 1000 false false 0 [] =
      Except.error msg :=
  C7_followPath_validation none true Direction.forward 1000 false false 0 []
    (Or.inl rfl)

/-- C9: createLink links the two elements' centers: the returned Link's
path is the 2-point path from (x1 + w1/2, y1 + h1/2) to
(x2 + w2/2, y2 + h2/2); for boxes at (0,0,50,50) and (100,100,50,50) this
is [(25,25), (125,125)]. -/
theorem C9_createLink_centers :
    (∀ (e1 e2 : Box) (ls : String) (sa ea : Bool),
      (createLink e1 e2 ls sa ea).path.points =
        [⟨e1.x + e1.width / 2, e1.y + e1.height / 2⟩,
         ⟨e2.x + e2.width / 2, e2.y + e2.height / 2⟩]) ∧
    (createLink ⟨0, 0, 50, 50⟩ ⟨100, 100, 50, 50⟩ "solid"
        false false).path.points = [⟨25, 25⟩, ⟨125, 125⟩] := by
  constructor
  · intro e1 e2 ls sa ea
    rfl
  · show ([⟨0 + 50 / 2, 0 + 50 / 2⟩, ⟨100 + 50 / 2, 100 + 50 / 2⟩] :
      List Point) = [⟨25, 25⟩, ⟨125, 125⟩]
    norm_num

/-- C2: on a path of n ≥ 2 points the walk scans correctly (every step
belongs to the segment currently running and segment completions fire in
increasing order with the overall completion only at the very end); a
step of segment s is preceded by the completion callbacks of all segments
below s, so segment i+1 begins only after segment i completed; and when
the walk completes, the segment completions fired are exactly
0, ..., n-2, each exactly once and in increasing order, and the overall
completion fires exactly once, as the final event after them. -/
theorem C2_moveAlongPath_segment_order (pts : List Point) (d now : ℚ)
    (fs : List ℚ) (h2 : 2 ≤ pts.length) :
    segScan (pts.length - 1) 0 (moveAlongPath pts d now fs) = true ∧
    (∀ l1 x y si s l2,
      moveAlongPath pts d now fs = l1 ++ PathEvent.step x y si s :: l2 →
      ∀ i, i < s → PathEvent.segComplete i ∈ l1) ∧
    (PathEvent.complete ∈ moveAlongPath pts d now fs →
      (moveAlongPath pts d now fs).filterMap segCompleteIdx =
        List.range (pts.length - 1) ∧
      ∃ pre, moveAlongPath pts d now fs = pre ++ [PathEvent.complete] ∧
        PathEvent.complete ∉ pre) := by
  have hlt : ¬ pts.length < 2 := by omega
  have hm : moveAlongPath pts d now fs =
      (runPath pts (d / ((pts.length - 1 : ℕ) : ℚ)) (pts.length - 1) 0
        now fs).1 := by
    simp [moveAlongPath, hlt]
  refine ⟨?_, ?_, ?_⟩
  · rw [hm]
    have hscan := runPath_segScan pts (d / ((pts.length - 1 : ℕ) : ℚ))
      (pts.length - 1) 0 now fs
    simpa using hscan
  · intro l1 x y si s l2 heq i his
    have hscan := runPath_segScan pts (d / ((pts.length - 1 : ℕ) : ℚ))
      (pts.length - 1) 0 now fs
    rw [← hm, heq] at hscan
    exact (segScan_split_step (0 + (pts.length - 1)) l1 0 x y si s l2
      hscan).2 i (Nat.zero_le i) his
  · intro hc
    rw [hm] at hc ⊢
    rcases hq : (runPath pts (d / ((pts.length - 1 : ℕ) : ℚ))
        (pts.length - 1) 0 now fs).2 with _ | q
    · exact absurd hc (runPath_none_no_complete pts _ _ 0 now fs hq)
    · refine ⟨?_, runPath_some_complete_end pts _ _ 0 now fs q hq⟩
      rw [runPath_segComplete_range pts _ _ 0 now fs q hq,
        List.range_eq_range']

/-- C2 witness: the two-segment walk of Scenario B completes with segment
completions [0, 1] in order, then the overall completion. -/
theorem C2_witness :
    (2 ≤ ([⟨0, 0⟩, ⟨100, 0⟩, ⟨100, 100⟩] : List Point).length) ∧
    (segScan (([⟨0, 0⟩, ⟨100, 0⟩, ⟨100, 100⟩] : List Point).length - 1) 0
      (moveAlongPath [⟨0, 0⟩, ⟨100, 0⟩, ⟨100, 100⟩] 1000 0
        [250, 500, 750, 1000]) = true ∧
    (∀ l1 x y si s l2,
      moveAlongPath [⟨0, 0⟩, ⟨100, 0⟩, ⟨100, 100⟩] 1000 0
        [250, 500, 750, 1000] = l1 ++ PathEvent.step x y si s :: l2 →
      ∀ i, i < s → PathEvent.segComplete i ∈ l1) ∧
    (PathEvent.complete ∈ moveAlongPath [⟨0, 0⟩, ⟨100, 0⟩, ⟨100, 100⟩]
        1000 0 [250, 500, 750, 1000] →
      (moveAlongPath [⟨0, 0⟩, ⟨100, 0⟩, ⟨100, 100⟩] 1000 0
        [250, 500, 750, 1000]).filterMap segCompleteIdx =
        List.range (([⟨0, 0⟩, ⟨100, 0⟩, ⟨100, 100⟩] :
          List Point).length - 1) ∧
      ∃ pre, moveAlongPath [⟨0, 0⟩, ⟨100, 0⟩, ⟨100, 100⟩] 1000 0
          [250, 500, 750, 1000] = pre ++ [PathEvent.complete] ∧
        PathEvent.complete ∉ pre)) :=
  ⟨by decide,
    C2_moveAlongPath_segment_order [⟨0, 0⟩, ⟨100, 0⟩, ⟨100, 100⟩] 1000 0
      [250, 500, 750, 1000] (by decide)⟩

/-- C8: in every moveAlongPath walk on a path of n ≥ 2 points, the
stepIndex values delivered for any one segment form an initial range
0, 1, 2, ... — the counter starts at 0, increases by exactly 1 per step
with no gaps, and restarts for each segment because it is the per-call
counter of that segment's moveBetweenPoints, whose own step trace
likewise always carries indices 0, 1, 2, .... -/
theorem C8_stepIdx_local_per_segment (pts : List Point) (d now : ℚ)
    (fs : List ℚ) (h2 : 2 ≤ pts.length) :
    (∀ j, ∃ m, (moveAlongPath pts d now fs).filterMap (stepIdxOfSeg j) =
      List.range m) ∧
    (∀ (sp ep : Point) (dur st : ℚ) (fr : List ℚ), ∃ m,
      (moveBetweenPoints sp ep dur st fr).filterMap moveStepIdx =
        List.range m) := by
  have hlt : ¬ pts.length < 2 := by omega
  constructor
  · intro j
    have hm : moveAlongPath pts d now fs =
        (runPath pts (d / ((pts.length - 1 : ℕ) : ℚ)) (pts.length - 1) 0
          now fs).1 := by
      simp [moveAlongPath, hlt]
    rw [hm]
    exact runPath_stepIdx pts _ j (pts.length - 1) 0 now fs
  · intro sp ep dur st fr
    refine ⟨(runMove sp ep dur st 0 fr).1.length, ?_⟩
    have hsplit : (moveBetweenPoints sp ep dur st fr).filterMap
        moveStepIdx = (runMove sp ep dur st 0 fr).1.map Step.idx := by
      have hcomp : ∀ l : List Step, l.filterMap
          (moveStepIdx ∘ fun s => MoveEvent.step s.x s.y s.idx) =
          l.map Step.idx := by
        intro l
        induction l with
        | nil => rfl
        | cons s l ih =>
          simp [List.filterMap_cons, moveStepIdx, ih, Function.comp]
      rcases h : (runMove sp ep dur st 0 fr).2 with _ | q <;>
        simp [moveBetweenPoints, h, List.filterMap_append,
          filterMap_moveStepIdx_map, hcomp, moveStepIdx]
    rw [hsplit, runMove_idx sp ep dur st fr 0, List.range_eq_range']

/-- C8 witness: Scenario B again; indices restart at 0 in segment 1. -/
theorem C8_witness :
    (2 ≤ ([⟨0, 0⟩, ⟨100, 0⟩, ⟨100, 100⟩] : List Point).length) ∧
    ((∀ j, ∃ m, (moveAlongPath [⟨0, 0⟩, ⟨100, 0⟩, ⟨100, 100⟩] 1000 0
        [250, 500, 750, 1000]).filterMap (stepIdxOfSeg j) =
      List.range m) ∧
    (∀ (sp ep : Point) (dur st : ℚ) (fr : List ℚ), ∃ m,
      (moveBetweenPoints sp ep dur st fr).filterMap moveStepIdx =
        List.range m)) :=
  ⟨by decide,
    C8_stepIdx_local_per_segment [⟨0, 0⟩, ⟨100, 0⟩, ⟨100, 100⟩] 1000 0
      [250, 500, 750, 1000] (by decide)⟩

/-- The three loop-count facts of a single no-loop run of
executeAnimation: updates report the initial loop count 0, and the
completion event, if reached, is unique, final, and carries 1. -/
theorem followPathAux_noloop_props (D : ℚ) (yoyo : Bool) (fuel : ℕ)
    (heap : Heap) (dir0 : Direction) (now : ℚ) (fs : List ℚ) :
    (∀ x y si gi lc dr, FollowEvent.update x y si gi lc dr ∈
      (followPathAux D false yoyo (fuel + 1) heap 0 dir0 now fs).1 →
      lc = 0) ∧
    (∀ lc, FollowEvent.complete lc ∈
      (followPathAux D false yoyo (fuel + 1) heap 0 dir0 now fs).1 →
      lc = 1) ∧
    ((∃ lc, FollowEvent.complete lc ∈
        (followPathAux D false yoyo (fuel + 1) heap 0 dir0 now fs).1) →
      ∃ pre, (followPathAux D false yoyo (fuel + 1) heap 0 dir0
          now fs).1 = pre ++ [FollowEvent.complete 1] ∧
        ∀ lc, FollowEvent.complete lc ∉ pre) := by
  have hshape := followPathAux_noloop D yoyo fuel heap 0 dir0 now fs
  rcases hq : (runPath (heap.getD 1 [])
      (D / (((heap.getD 1 []).length - 1 : ℕ) : ℚ))
      ((heap.getD 1 []).length - 1) 0 now fs).2 with _ | q
  · rw [hq] at hshape
    simp only [Option.isSome_none, Bool.false_eq_true, if_false,
      List.append_nil] at hshape
    rw [hshape]
    refine ⟨?_, ?_, ?_⟩
    · intro x y si gi lc dr hm
      rcases List.mem_cons.mp hm with h | h
      · exact absurd h (by simp)
      · exact (updateAdapter_mem _ _ _ _ _ _ _ _ _ h).1
    · intro lc hm
      rcases List.mem_cons.mp hm with h | h
      · exact absurd h (by simp)
      · exact absurd h (complete_not_mem_adapter _ _ _ _)
    · rintro ⟨lc, hm⟩
      rcases List.mem_cons.mp hm with h | h
      · exact absurd h (by simp)
      · exact absurd h (complete_not_mem_adapter _ _ _ _)
  · rw [hq] at hshape
    simp only [Option.isSome_some, if_true] at hshape
    rw [hshape]
    refine ⟨?_, ?_, ?_⟩
    · intro x y si gi lc dr hm
      rcases List.mem_cons.mp hm with h | h
      · exact absurd h (by simp)
      · rcases List.mem_append.mp h with h | h
        · exact (updateAdapter_mem _ _ _ _ _ _ _ _ _ h).1
        · exact absurd (List.mem_singleton.mp h) (by simp)
    · intro lc hm
      rcases List.mem_cons.mp hm with h | h
      · exact absurd h (by simp)
      · rcases List.mem_append.mp h with h | h
        · exact absurd h (complete_not_mem_adapter _ _ _ _)
        · have := List.mem_singleton.mp h
          injection this
    · intro _hex
      refine ⟨FollowEvent.traversalStart (heap.getD 1 []) dir0 0 ::
        (runPath (heap.getD 1 [])
          (D / (((heap.getD 1 []).length - 1 : ℕ) : ℚ))
          ((heap.getD 1 []).length - 1) 0 now fs).1.filterMap
          (updateAdapter 0 dir0), by rw [List.cons_append], ?_⟩
      intro lc hm
      rcases List.mem_cons.mp hm with h | h
      · exact absurd h (by simp)
      · exact absurd h (complete_not_mem_adapter _ _ _ _)

/-- C3: followPath with loop disabled reports loop count 0 to the update
callback throughout its single traversal, and when that traversal
completes within the frame supply, the completion callback fires exactly
once, as the final event, with loop count 1. -/
theorem C3_followPath_noloop (p : Path) (dir : Direction) (d : ℚ)
    (yoyo : Bool) (now : ℚ) (fs : List ℚ) (h2 : 2 ≤ p.points.length) :
    ∃ evs heapF,
      followPath (some p) true dir d false yoyo now fs =
        Except.ok (evs, heapF) ∧
      (∀ x y si gi lc dr, FollowEvent.update x y si gi lc dr ∈ evs →
        lc = 0) ∧
      (∀ lc, FollowEvent.complete lc ∈ evs → lc = 1) ∧
      ((∃ lc, FollowEvent.complete lc ∈ evs) →
        ∃ pre, evs = pre ++ [FollowEvent.complete 1] ∧
          ∀ lc, FollowEvent.complete lc ∉ pre) := by
  have hlt : ¬ p.points.length < 2 := by omega
  have hfp : followPath (some p) true dir d false yoyo now fs =
      Except.ok (followPathAux d false yoyo (fs.length + 1)
        (if dir = Direction.forward then [p.points, p.points]
          else reverseAt [p.points, p.points] 1) 0 dir now fs) := by
    simp [followPath, hlt]
  obtain ⟨h1, h2', h3⟩ := followPathAux_noloop_props d yoyo fs.length
    (if dir = Direction.forward then [p.points, p.points]
      else reverseAt [p.points, p.points] 1) dir now fs
  exact ⟨(followPathAux d false yoyo (fs.length + 1)
      (if dir = Direction.forward then [p.points, p.points]
        else reverseAt [p.points, p.points] 1) 0 dir now fs).1,
    (followPathAux d false yoyo (fs.length + 1)
      (if dir = Direction.forward then [p.points, p.points]
        else reverseAt [p.points, p.points] 1) 0 dir now fs).2,
    by rw [hfp], h1, h2', h3⟩

/-- C3 witness: a 2-point path, forward, duration 1000, frames at 500 and
1000: the call succeeds. -/
theorem C3_witness :
    (2 ≤ (Path.mk [⟨0, 0⟩, ⟨10, 0⟩]).points.length) ∧
    ∃ evs heapF, followPath (some (Path.mk [⟨0, 0⟩, ⟨10, 0⟩])) true
        Direction.forward 1000 false false 0 [500, 1000] =
      Except.ok (evs, heapF) :=
  ⟨by decide, by
    obtain ⟨evs, heapF, h, -⟩ := C3_followPath_noloop
      (Path.mk [⟨0, 0⟩, ⟨10, 0⟩]) Direction.forward 1000 false 0
      [500, 1000] (by decide)
    exact ⟨evs, heapF, h⟩⟩

/-- C4: followPath with loop and yoyo both enabled flips the current
direction and reverses the working point sequence at the end of each
traversal: the direction reported with loop count lc is the initial
direction flipped lc times (so it alternates forward, backward, ...),
and the working list of traversal lc + 1 is the reverse of traversal
lc's, so its first point is the endpoint the previous traversal just
reached. -/
theorem C4_followPath_yoyo (p : Path) (dir0 : Direction) (d now : ℚ)
    (fs : List ℚ) (h2 : 2 ≤ p.points.length) :
    ∃ evs heapF,
      followPath (some p) true dir0 d true true now fs =
        Except.ok (evs, heapF) ∧
      (∀ x y si gi lc dr, FollowEvent.update x y si gi lc dr ∈ evs →
        dr = altDir dir0 lc) ∧
      (∀ p1 d1 p2 d2 lc,
        FollowEvent.traversalStart p1 d1 lc ∈ evs →
        FollowEvent.traversalStart p2 d2 (lc + 1) ∈ evs →
        p2 = p1.reverse ∧ d2 = d1.flip ∧ p2.head? = p1.getLast?) := by
  have hlt : ¬ p.points.length < 2 := by omega
  have hfp : followPath (some p) true dir0 d true true now fs =
      Except.ok (followPathAux d true true (fs.length + 1)
        (if dir0 = Direction.forward then [p.points, p.points]
          else reverseAt [p.points, p.points] 1) 0 dir0 now fs) := by
    simp [followPath, hlt]
  have hHb : ∃ b, (if dir0 = Direction.forward then [p.points, p.points]
      else reverseAt [p.points, p.points] 1) =
      p.points :: b :: ([] : Heap) := by
    rcases em (dir0 = Direction.forward) with h | h
    · exact ⟨p.points, by simp [h]⟩
    · exact ⟨p.points.reverse, by
        simp only [h, if_false]
        exact reverseAt_cons2 p.points p.points []⟩
  obtain ⟨b, hb⟩ := hHb
  rw [hb] at hfp
  refine ⟨(followPathAux d true true (fs.length + 1)
      (p.points :: b :: []) 0 dir0 now fs).1,
    (followPathAux d true true (fs.length + 1)
      (p.points :: b :: []) 0 dir0 now fs).2,
    by rw [hfp], ?_, ?_⟩
  · intro x y si gi lc dr hm
    obtain ⟨j, hj, hdr⟩ := followPathAux_yoyo_update d (fs.length + 1)
      p.points b [] 0 dir0 now fs x y si gi lc dr hm
    rw [hdr, show j = lc by omega]
  · intro p1 d1 p2 d2 lc hm1 hm2
    obtain ⟨j1, hj1, hp1, hd1⟩ := followPathAux_yoyo_start d
      (fs.length + 1) p.points b [] 0 dir0 now fs p1 d1 lc hm1
    obtain ⟨j2, hj2, hp2, hd2⟩ := followPathAux_yoyo_start d
      (fs.length + 1) p.points b [] 0 dir0 now fs p2 d2 (lc + 1) hm2
    have e1 : j1 = lc := by omega
    have e2 : j2 = lc + 1 := by omega
    refine ⟨?_, ?_, ?_⟩
    · rw [hp2, hp1, e2, e1, altList_succ]
    · rw [hd2, hd1, e2, e1, altDir_succ]
    · rw [hp2, hp1, e2, e1, altList_succ, List.head?_reverse]

/-- C4 witness: Scenario C, two observed traversals on a 2-point path:
the call succeeds (and its trace alternates forward then backward). -/
theorem C4_witness :
    (2 ≤ (Path.mk [⟨0, 0⟩, ⟨10, 0⟩]).points.length) ∧
    ∃ evs heapF, followPath (some (Path.mk [⟨0, 0⟩, ⟨10, 0⟩])) true
        Direction.forward 1000 true true 0 [1000, 2000] =
      Except.ok (evs, heapF) :=
  ⟨by decide, by
    obtain ⟨evs, heapF, h, -⟩ := C4_followPath_yoyo
      (Path.mk [⟨0, 0⟩, ⟨10, 0⟩]) Direction.forward 1000 0 [1000, 2000]
      (by decide)
    exact ⟨evs, heapF, h⟩⟩

/-- C10: followPath never mutates the Path it is given: whatever the
direction, loop and yoyo settings, and after any number of completed
traversals, heap cell 0 — the path's own points array — still holds the
original points in the original order; only the spread copy in cell 1 is
ever reversed. -/
theorem C10_followPath_no_mutation (p : Path) (dir : Direction) (d : ℚ)
    (loop yoyo : Bool) (now : ℚ) (fs : List ℚ)
    (h2 : 2 ≤ p.points.length) :
    ∃ evs heapF,
      followPath (some p) true dir d loop yoyo now fs =
        Except.ok (evs, heapF) ∧ heapF.getD 0 [] = p.points := by
  have hlt : ¬ p.points.length < 2 := by omega
  have hfp : followPath (some p) true dir d loop yoyo now fs =
      Except.ok (followPathAux d loop yoyo (fs.length + 1)
        (if dir = Direction.forward then [p.points, p.points]
          else reverseAt [p.points, p.points] 1) 0 dir now fs) := by
    simp [followPath, hlt]
  have hHb : ∃ b, (if dir = Direction.forward then [p.points, p.points]
      else reverseAt [p.points, p.points] 1) =
      p.points :: b :: ([] : Heap) := by
    rcases em (dir = Direction.forward) with h | h
    · exact ⟨p.points, by simp [h]⟩
    · exact ⟨p.points.reverse, by
        simp only [h, if_false]
        exact reverseAt_cons2 p.points p.points []⟩
  obtain ⟨b, hb⟩ := hHb
  rw [hb] at hfp
  obtain ⟨w, hw⟩ := followPathAux_heap d loop yoyo (fs.length + 1)
    p.points b [] 0 dir now fs
  exact ⟨(followPathAux d loop yoyo (fs.length + 1)
      (p.points :: b :: []) 0 dir now fs).1,
    (followPathAux d loop yoyo (fs.length + 1)
      (p.points :: b :: []) 0 dir now fs).2,
    by rw [hfp], by rw [hw]; rfl⟩

/-- C10 witness: a looping yoyo run that reverses the working copy twice
leaves the path's own array intact. -/
theorem C10_witness :
    (2 ≤ (Path.mk [⟨0, 0⟩, ⟨10, 0⟩]).points.length) ∧
    ∃ evs heapF, followPath (some (Path.mk [⟨0, 0⟩, ⟨10, 0⟩])) true
        Direction.backward 1000 true true 0 [1000, 2000] =
      Except.ok (evs, heapF) ∧ heapF.getD 0 [] = [⟨0, 0⟩, ⟨10, 0⟩] :=
  ⟨by decide,
    C10_followPath_no_mutation (Path.mk [⟨0, 0⟩, ⟨10, 0⟩])
      Direction.backward 1000 true true 0 [1000, 2000] (by decide)⟩

end Animation
